import Mathlib

set_option maxRecDepth 4000

/-!
Verification of the intent-to-NetworkPolicy compiler in
`src/backend/policy_generator.py`.

The Python module works on JSON-like dictionaries.  We embed the data model
with typed structures in which a dictionary key that may be absent becomes an
`Option` field, and insertion-ordered dictionaries become association lists in
insertion order.  A Python expression that can raise `KeyError` becomes an
`Option`-valued function (`none` models the raised exception propagating out
of `generate`).  The wall-clock timestamp `datetime.now().isoformat()` is
modelled as an explicit `now : String` parameter.
-/

/-- A communication rule, one element of the intent's `rules` list.
Fields mirror the dictionary keys read by the source: `from`, `to`,
`ports`, `protocols`, `namespace`; each is optional because the source
accesses them with `rule.get(...)` or guarded `rule[...]`. -/
structure Rule where
  «from» : Option String
  «to» : Option String
  ports : Option (List Int)
  protocols : Option (List String)
  «namespace» : Option String
deriving DecidableEq

/-- The intent dictionary: `name`, `namespace` and `rules` keys, all read
with `.get` in the source, hence optional. -/
structure Intent where
  name : Option String
  «namespace» : Option String
  rules : Option (List Rule)
deriving DecidableEq

/-- One element of a rule entry's `ports` list:
the dictionary `{"port": p, "protocol": q}`. -/
structure PortSpec where
  port : Int
  protocol : String
deriving DecidableEq

/-- One peer selector, i.e. one element of the `from`/`to` list of a rule
entry.  `app` is the value of `podSelector.matchLabels.app`;
`namespaceSelector` is `some ns` when the selector carries
`namespaceSelector: {matchLabels: {name: ns}}` and `none` when the
`namespaceSelector` key is absent. -/
structure PeerSel where
  app : String
  namespaceSelector : Option String
deriving DecidableEq

/-- A single ingress or egress rule entry.  `peers` is the `from` list
(ingress) or `to` list (egress); `ports` is the optional `ports` key. -/
structure Entry where
  peers : List PeerSel
  ports : Option (List PortSpec)
deriving DecidableEq

/-- Manifest metadata; `labels` and `annotations` keep dictionary literal
order as association lists. -/
structure Metadata where
  name : String
  «namespace» : String
  labels : List (String × String)
  annotations : List (String × String)
deriving DecidableEq

/-- The `spec` part of a manifest.  `podSelector = none` models the empty
selector `{}` (match all pods); `podSelector = some a` models
`{matchLabels: {app: a}}`.  `ingress`/`egress` are `none` when the key is
absent from the dictionary. -/
structure PolicySpec where
  podSelector : Option String
  policyTypes : List String
  ingress : Option (List Entry)
  egress : Option (List Entry)
deriving DecidableEq

/-- A generated NetworkPolicy manifest. -/
structure Manifest where
  apiVersion : String
  kind : String
  metadata : Metadata
  spec : PolicySpec
deriving DecidableEq

/-- The per-destination dictionary built by `_extract_egress_rules`:
`{"to": .., "ports": .., "protocols": .., "namespace": ..}`.  `to` is
mandatory there (`rule["to"]`), `ports` is passed through unchanged, and
`protocols` / `namespace` have their defaults already applied. -/
structure EgressDest where
  «to» : String
  ports : Option (List Int)
  protocols : List String
  «namespace» : String
deriving DecidableEq

/-- Result of `validate_intent`. -/
structure ValidationResult where
  valid : Bool
  errors : List String
  warnings : List String
deriving DecidableEq

/-- The expression `intent.get("namespace", "default")`. -/
def intent_ns (intent : Intent) : String := (intent.«namespace»).getD "default"

/-- The expression `intent.get("rules", [])`. -/
def intent_rule_list (intent : Intent) : List Rule := (intent.rules).getD []

/-- The expression `intent.get("name", "generated")`. -/
def intent_label (intent : Intent) : String := (intent.name).getD "generated"

/-- The nested loop `for port in ports: for protocol in protocols: append`
building the port list of a rule entry (ports outer, protocols inner). -/
def expand_ports (ports : List Int) (protocols : List String) : List PortSpec :=
  match ports with
  | [] => []
  | p :: ps => protocols.map (fun q => { port := p, protocol := q }) ++ expand_ports ps protocols

/-- The guarded port construction `if ports: ... cartesian loops`, shared
verbatim by the ingress and egress synthesizers: a `None` or empty `ports`
value is falsy in Python, so the `ports` key is left absent. -/
def port_field : Option (List Int) → List String → Option (List PortSpec)
  | some (p :: ps), protocols => some (expand_ports (p :: ps) protocols)
  | _, _ => none

/-- The body of the per-rule loop of `_generate_ingress_policy`: builds one
ingress rule entry.  Fails (models `KeyError`) when the rule has no `from`.
`source_ns = rule.get("namespace", namespace)`; the namespace selector is
attached iff `source_ns != namespace`. -/
def ingress_entry (ns : String) (rule : Rule) : Option Entry :=
  (rule.«from»).map (fun f =>
    let source_ns := (rule.«namespace»).getD ns
    { peers := [{ app := f,
                  namespaceSelector := if source_ns ≠ ns then some source_ns else none }],
      ports := port_field rule.ports ((rule.protocols).getD ["TCP"]) })

/-- Generic Option-valued traversal of a list (the loops in the source that
either build a list or raise). -/
def option_traverse {α β : Type} (f : α → Option β) : List α → Option (List β)
  | [] => some []
  | a :: as => (f a).bind (fun b => (option_traverse f as).map (fun bs => b :: bs))

/-- `_generate_default_deny(namespace)`. -/
def generate_default_deny (ns now : String) : Manifest :=
  { apiVersion := "networking.k8s.io/v1"
    kind := "NetworkPolicy"
    metadata :=
      { name := "default-deny-all"
        «namespace» := ns
        labels := [("app.kubernetes.io/managed-by", "k8s-policy-generator"),
                   ("policy-type", "default-deny")]
        annotations := [("description", "Default deny all ingress and egress traffic"),
                        ("generated-at", now)] }
    spec := { podSelector := none
              policyTypes := ["Ingress", "Egress"]
              ingress := none
              egress := none } }

/-- `_generate_ingress_policy(dest_service, rules, namespace, intent_name)`.
Fails when some rule in the group has no `from` (both the entry loop and the
`allowed-sources` join read `rule["from"]`). -/
def generate_ingress_policy (dest_service : String) (rules : List Rule)
    (ns intent_name now : String) : Option Manifest :=
  (option_traverse (ingress_entry ns) rules).bind (fun ingress_rules =>
    (option_traverse (fun r => r.«from») rules).map (fun sources =>
        { apiVersion := "networking.k8s.io/v1"
          kind := "NetworkPolicy"
          metadata :=
            { name := "allow-ingress-to-" ++ dest_service
              «namespace» := ns
              labels := [("app.kubernetes.io/managed-by", "k8s-policy-generator"),
                         ("policy-type", "ingress"),
                         ("target-service", dest_service),
                         ("intent", intent_name)]
              annotations := [("description", "Allow ingress traffic to " ++ dest_service),
                              ("generated-at", now),
                              ("allowed-sources", String.intercalate "," sources)] }
          spec := { podSelector := some dest_service
                    policyTypes := ["Ingress"]
                    ingress := some ingress_rules
                    egress := none } }))

/-- The dictionary appended per rule by `_extract_egress_rules`: note that
the `namespace` default there is the literal string `"default"`, not the
intent namespace. -/
def mk_egress_dest (rule : Rule) : Option EgressDest :=
  (rule.«to»).map (fun t =>
    { «to» := t
      ports := rule.ports
      protocols := (rule.protocols).getD ["TCP"]
      «namespace» := (rule.«namespace»).getD "default" })

/-- The body of the per-destination loop of `_generate_egress_policy`:
`dest_ns = dest.get("namespace", namespace)` (the key is always present in
the extracted dictionary), selector attached iff `dest_ns != namespace`. -/
def egress_entry (ns : String) (dest : EgressDest) : Entry :=
  { peers := [{ app := dest.«to»,
                namespaceSelector :=
                  if dest.«namespace» ≠ ns then some dest.«namespace» else none }]
    ports := port_field dest.ports dest.protocols }

/-- The DNS rule entry appended unconditionally at the end of every egress
manifest (`"to": []`, ports 53/UDP and 53/TCP). -/
def dns_egress_rule : Entry :=
  { peers := []
    ports := some [{ port := 53, protocol := "UDP" }, { port := 53, protocol := "TCP" }] }

/-- `_generate_egress_policy(source_service, destinations, namespace, intent_name)`. -/
def generate_egress_policy (source_service : String) (destinations : List EgressDest)
    (ns intent_name now : String) : Manifest :=
  { apiVersion := "networking.k8s.io/v1"
    kind := "NetworkPolicy"
    metadata :=
      { name := "allow-egress-from-" ++ source_service
        «namespace» := ns
        labels := [("app.kubernetes.io/managed-by", "k8s-policy-generator"),
                   ("policy-type", "egress"),
                   ("source-service", source_service),
                   ("intent", intent_name)]
        annotations := [("description", "Allow egress traffic from " ++ source_service),
                        ("generated-at", now),
                        ("allowed-destinations",
                          String.intercalate "," (destinations.map (fun d => d.«to»)))] }
    spec := { podSelector := some source_service
              policyTypes := ["Egress"]
              ingress := none
              egress := some (destinations.map (egress_entry ns) ++ [dns_egress_rule]) } }

/-- One step of building an insertion-ordered grouping dictionary:
`if k not in d: d[k] = []` followed by `d[k].append(v)`.  Existing keys keep
their position, a new key goes to the end (Python dict semantics). -/
def insert_grouped {β : Type} (acc : List (String × List β)) (k : String) (v : β) :
    List (String × List β) :=
  if k ∈ acc.map Prod.fst then
    acc.map (fun p => if p.1 = k then (p.1, p.2 ++ [v]) else p)
  else acc ++ [(k, [v])]

/-- The grouping loops of `generate` / `_extract_egress_rules`:
iterate the rules, keyed by `key` (raising, i.e. `none`, when the key field
is missing), mapping each rule through `val` before appending. -/
def group_by_aux {β : Type} (key : Rule → Option String) (val : Rule → Option β)
    (acc : List (String × List β)) : List Rule → Option (List (String × List β))
  | [] => some acc
  | r :: rs =>
    match key r with
    | none => none
    | some k =>
      match val r with
      | none => none
      | some v => group_by_aux key val (insert_grouped acc k v) rs

/-- The `rules_by_dest` dictionary built in `generate` (grouping by `rule["to"]`). -/
def rules_by_dest (rules : List Rule) : Option (List (String × List Rule)) :=
  group_by_aux (fun r => r.«to») (fun r => some r) [] rules

/-- `_extract_egress_rules(rules)`: grouping by `rule["from"]`, with each
rule replaced by its extracted destination dictionary. -/
def extract_egress_rules (rules : List Rule) : Option (List (String × List EgressDest)) :=
  group_by_aux (fun r => r.«from») mk_egress_dest [] rules

/-- `PolicyGenerator.generate(intent)`: default deny, then one ingress
policy per destination group, then one egress policy per source group.
`none` models an uncaught `KeyError` from a rule missing `from`/`to`. -/
def generate (intent : Intent) (now : String) : Option (List Manifest) :=
  (rules_by_dest (intent_rule_list intent)).bind (fun gsI =>
    (option_traverse
        (fun p => generate_ingress_policy p.1 p.2 (intent_ns intent) (intent_label intent) now)
        gsI).bind (fun ims =>
      (extract_egress_rules (intent_rule_list intent)).map (fun gsE =>
        generate_default_deny (intent_ns intent) now ::
          (ims ++ gsE.map
            (fun p =>
              generate_egress_policy p.1 p.2 (intent_ns intent) (intent_label intent) now)))))

/-- The per-rule validation loop of `validate_intent` (index carried for the
message text), returning the `(errors, warnings)` it appends.  Note the
`from == to` warning compares the two `.get` results, so two absent fields
also compare equal. -/
def rule_messages : Nat → List Rule → List String × List String
  | _, [] => ([], [])
  | i, rule :: rest =>
    let tail := rule_messages (i + 1) rest
    ((if rule.«from» = none then ["Rule " ++ toString i ++ ": Missing \x27from\x27 field"] else []) ++
       (if rule.«to» = none then ["Rule " ++ toString i ++ ": Missing \x27to\x27 field"] else []) ++
       tail.1,
     (if rule.«from» = rule.«to»
        then ["Rule " ++ toString i ++ ": Source and destination are the same"] else []) ++
       tail.2)

/-- `PolicyGenerator.validate_intent(intent)`. -/
def validate_intent (intent : Intent) : ValidationResult :=
  let missing_errors : List String :=
    if intent.rules = none then ["Missing \x27rules\x27 field in intent"] else []
  let empty_warnings : List String :=
    if intent_rule_list intent = [] then ["No rules defined in intent"] else []
  let msgs := rule_messages 0 (intent_rule_list intent)
  let errors := missing_errors ++ msgs.1
  let warnings := empty_warnings ++ msgs.2
  { valid := errors.isEmpty, errors := errors, warnings := warnings }

/-- Drop the `generated-at` annotation (the only timestamp field) from a
manifest, for idempotence-modulo-timestamp statements. -/
def erase_generated_at (m : Manifest) : Manifest :=
  { m with metadata :=
      { m.metadata with annotations :=
          m.metadata.annotations.filter (fun kv => decide (kv.1 ≠ "generated-at")) } }

/-- A manifest is the default-deny one iff it carries the
`policy-type: default-deny` label. -/
def is_default_deny (m : Manifest) : Bool :=
  decide (("policy-type", "default-deny") ∈ m.metadata.labels)

/-- First-seen deduplication of a key list: the iteration order of a Python
dict whose keys were inserted in this sequence. -/
def first_seen : List String → List String
  | [] => []
  | k :: ks => k :: remove_key k (first_seen ks)
where
  /-- Drop every occurrence of `k`. -/
  remove_key (k : String) : List String → List String
    | [] => []
    | x :: xs => if x = k then remove_key k xs else x :: remove_key k xs

/-- Keys of a grouping association list, in order. -/
def group_keys {β : Type} (gs : List (String × List β)) : List String :=
  gs.map Prod.fst

/-- Value list of the first group with the given key (`[]` when absent). -/
def find_group {β : Type} (k : String) : List (String × List β) → List β
  | [] => []
  | p :: ps => if p.1 = k then p.2 else find_group k ps

/-- Order-preserving list difference: the elements of the first list not in
the second, in order. -/
def minus_keys : List String → List String → List String
  | [], _ => []
  | x :: xs, ks => if x ∈ ks then minus_keys xs ks else x :: minus_keys xs ks

/-- Scenario A of the specification: one frontend-to-backend rule on
port 8080/TCP in the default namespace. -/
def intent_a : Intent :=
  { name := some "x", «namespace» := some "default",
    rules := some [{ «from» := some "frontend", «to» := some "backend",
                     ports := some [8080], protocols := some ["TCP"], «namespace» := none }] }

/-- An intent living in namespace `prod` whose single rule carries no
`namespace` field. -/
def intent_prod : Intent :=
  { name := none, «namespace» := some "prod",
    rules := some [{ «from» := some "a", «to» := some "b",
                     ports := none, protocols := none, «namespace» := none }] }

/-- An intent with two rules sharing the same source and destination pair
(differing only in ports). -/
def intent_dup : Intent :=
  { name := none, «namespace» := none,
    rules := some [{ «from» := some "a", «to» := some "b",
                     ports := some [80], protocols := none, «namespace» := none },
                   { «from» := some "a", «to» := some "b",
                     ports := some [443], protocols := none, «namespace» := none }] }

/-- An intent in the default namespace whose rule references the distinct
namespace `web`. -/
def intent_web : Intent :=
  { name := some "x", «namespace» := none,
    rules := some [{ «from» := some "a", «to» := some "b",
                     ports := none, protocols := none, «namespace» := some "web" }] }

/-- An intent whose `rules` key is absent. -/
def intent_norules : Intent := { name := none, «namespace» := none, rules := none }

/-- The egress rule-entry list generated for the frontend group of
`intent_a`: one entry to backend on 8080/TCP, then the DNS entry. -/
def es_a : List Entry :=
  [{ peers := [{ app := "backend", namespaceSelector := none }],
     ports := some [{ port := 8080, protocol := "TCP" }] },
   dns_egress_rule]

/-- The single ingress rule entry generated for `intent_a`. -/
def entry_a : Entry :=
  { peers := [{ app := "frontend", namespaceSelector := none }],
    ports := some [{ port := 8080, protocol := "TCP" }] }

/-- The single ingress rule entry generated for `intent_web`: the peer
selector carries the cross-namespace selector for `web`. -/
def entry_web : Entry :=
  { peers := [{ app := "a", namespaceSelector := some "web" }], ports := none }

/-- Every element produced by a successful traversal comes from applying `f`
to some element of the input list. -/
theorem option_traverse_mem {α β : Type} {f : α → Option β} :
    ∀ {l : List α} {l' : List β}, option_traverse f l = some l' →
      ∀ b ∈ l', ∃ a ∈ l, f a = some b := by
  intro l
  induction l with
  | nil =>
    intro l' h b hb
    simp [option_traverse] at h
    subst h
    simp at hb
  | cons a as ih =>
    intro l' h b hb
    simp only [option_traverse, Option.bind_eq_some, Option.map_eq_some'] at h
    obtain ⟨b0, hfa, bs, hrest, rfl⟩ := h
    rcases List.mem_cons.mp hb with rfl | hb'
    · exact ⟨a, List.mem_cons_self a as, hfa⟩
    · obtain ⟨a', ha', hfa'⟩ := ih hrest b hb'
      exact ⟨a', List.mem_cons_of_mem a ha', hfa'⟩

/-- A traversal succeeds when `f` succeeds on every element. -/
theorem option_traverse_isSome {α β : Type} {f : α → Option β} :
    ∀ {l : List α}, (∀ a ∈ l, (f a).isSome) → (option_traverse f l).isSome := by
  intro l
  induction l with
  | nil => intro _; simp [option_traverse]
  | cons a as ih =>
    intro h
    obtain ⟨b, hb⟩ := Option.isSome_iff_exists.mp (h a (List.mem_cons_self a as))
    obtain ⟨bs, hbs⟩ :=
      Option.isSome_iff_exists.mp (ih (fun x hx => h x (List.mem_cons_of_mem a hx)))
    simp [option_traverse, hb, hbs]

/-- Mapping a successful traversal's output agrees with mapping the input. -/
theorem option_traverse_map {α β γ : Type} {f : α → Option β} {g : β → γ} {h : α → γ} :
    ∀ {l : List α} {l' : List β}, option_traverse f l = some l' →
      (∀ a ∈ l, ∀ b, f a = some b → g b = h a) → l'.map g = l.map h := by
  intro l
  induction l with
  | nil =>
    intro l' hl _
    simp [option_traverse] at hl
    subst hl
    simp
  | cons a as ih =>
    intro l' hl hgh
    simp only [option_traverse, Option.bind_eq_some, Option.map_eq_some'] at hl
    obtain ⟨b0, hfa, bs, hrest, rfl⟩ := hl
    simp only [List.map_cons]
    rw [hgh a (List.mem_cons_self a as) b0 hfa,
      ih hrest (fun x hx => hgh x (List.mem_cons_of_mem a hx))]

/-- A successful traversal preserves the list length. -/
theorem option_traverse_length {α β : Type} {f : α → Option β} :
    ∀ {l : List α} {l' : List β}, option_traverse f l = some l' → l'.length = l.length := by
  intro l
  induction l with
  | nil =>
    intro l' h
    simp [option_traverse] at h
    subst h
    rfl
  | cons a as ih =>
    intro l' h
    simp only [option_traverse, Option.bind_eq_some, Option.map_eq_some'] at h
    obtain ⟨b0, _, bs, hrest, rfl⟩ := h
    simp [ih hrest]

/-- Two traversals whose element results agree modulo `g` agree modulo
mapping `g`. -/
theorem option_traverse_map_congr {α β γ : Type} (f f₂ : α → Option β) (g : β → γ) :
    ∀ (l : List α), (∀ a ∈ l, (f a).map g = (f₂ a).map g) →
      (option_traverse f l).map (List.map g) = (option_traverse f₂ l).map (List.map g) := by
  intro l
  induction l with
  | nil => intro _; simp [option_traverse]
  | cons a as ih =>
    intro hc
    have h1 := hc a (List.mem_cons_self a as)
    have h2 := ih (fun x hx => hc x (List.mem_cons_of_mem a hx))
    cases hfa : f a with
    | none =>
      cases hf2 : f₂ a with
      | none => simp [option_traverse, hfa, hf2]
      | some b2 => rw [hfa, hf2] at h1; simp at h1
    | some b =>
      cases hf2 : f₂ a with
      | none => rw [hfa, hf2] at h1; simp at h1
      | some b2 =>
        rw [hfa, hf2] at h1
        simp only [Option.map_some'] at h1
        injection h1 with h1'
        cases hx : option_traverse f as with
        | none =>
          cases hy : option_traverse f₂ as with
          | none => simp [option_traverse, hfa, hf2, hx, hy]
          | some bs2 => rw [hx, hy] at h2; simp at h2
        | some bs =>
          cases hy : option_traverse f₂ as with
          | none => rw [hx, hy] at h2; simp at h2
          | some bs2 =>
            rw [hx, hy] at h2
            simp only [Option.map_some'] at h2
            injection h2 with h2'
            simp [option_traverse, hfa, hf2, hx, hy, h1', h2']

/-- Keys after one grouping insertion: unchanged for a known key, appended
at the end for a new one. -/
theorem group_keys_insert {β : Type} (acc : List (String × List β)) (k : String) (v : β) :
    group_keys (insert_grouped acc k v) =
      if k ∈ group_keys acc then group_keys acc else group_keys acc ++ [k] := by
  unfold insert_grouped group_keys
  by_cases hk : k ∈ acc.map Prod.fst
  · rw [if_pos hk, if_pos hk, List.map_map]
    apply List.map_congr_left
    intro p _
    by_cases hp : p.1 = k <;> simp [hp]
  · rw [if_neg hk, if_neg hk, List.map_append]
    rfl

/-- Looking a key up after the in-place update branch of an insertion. -/
theorem find_group_map_update {β : Type} (k k' : String) (v : β) :
    ∀ (acc : List (String × List β)),
      find_group k' (acc.map (fun p => if p.1 = k then (p.1, p.2 ++ [v]) else p)) =
        if k' = k then (if k ∈ group_keys acc then find_group k acc ++ [v] else [])
        else find_group k' acc := by
  intro acc
  induction acc with
  | nil => by_cases h : k' = k <;> simp [find_group, group_keys, h]
  | cons p ps ih =>
    have hfst : ((if p.1 = k then (p.1, p.2 ++ [v]) else p)).1 = p.1 := by
      by_cases h : p.1 = k <;> simp [h]
    simp only [List.map_cons, find_group, hfst]
    by_cases hp : p.1 = k'
    · rw [if_pos hp]
      by_cases hk'k : k' = k
      · subst hk'k
        have hmem : k' ∈ group_keys (p :: ps) := by
          simp only [group_keys, List.map_cons]
          exact hp ▸ List.mem_cons_self _ _
        rw [if_pos rfl, if_pos hmem, if_pos hp]
        simp [find_group, hp]
      · have hpk : ¬ p.1 = k := fun h => hk'k (hp.symm.trans h)
        rw [if_neg hk'k, if_neg hpk]
        simp [find_group, hp]
    · rw [if_neg hp, ih]
      by_cases hk'k : k' = k
      · subst hk'k
        rw [if_pos rfl, if_pos rfl]
        by_cases hmem : k' ∈ group_keys ps
        · have hmem' : k' ∈ group_keys (p :: ps) := by
            simp only [group_keys, List.map_cons]
            exact List.mem_cons_of_mem _ hmem
          rw [if_pos hmem, if_pos hmem', if_neg hp]
        · have hmem' : k' ∉ group_keys (p :: ps) := by
            simp only [group_keys, List.map_cons, List.mem_cons]
            push_neg
            exact ⟨fun h => hp h.symm, by simpa [group_keys] using hmem⟩
          rw [if_neg hmem, if_neg hmem']
      · rw [if_neg hk'k, if_neg hk'k]
        simp [find_group, hp]

/-- Looking a key up after the append branch of an insertion (new key). -/
theorem find_group_append_new {β : Type} (k k' : String) (v : β) :
    ∀ (acc : List (String × List β)), k ∉ group_keys acc →
      find_group k' (acc ++ [(k, [v])]) =
        if k' = k then find_group k acc ++ [v] else find_group k' acc := by
  intro acc
  induction acc with
  | nil =>
    intro _
    by_cases h : k' = k
    · subst h
      simp [find_group]
    · have h' : ¬ k = k' := fun hh => h hh.symm
      simp [find_group, h, h']
  | cons p ps ih =>
    intro hk
    have hk1 : ¬ p.1 = k := by
      intro hh
      exact hk (by simp only [group_keys, List.map_cons]; exact hh ▸ List.mem_cons_self _ _)
    have hk2 : k ∉ group_keys ps := by
      intro hh
      exact hk (by
        simp only [group_keys, List.map_cons]
        exact List.mem_cons_of_mem _ (by simpa [group_keys] using hh))
    rw [List.cons_append]
    by_cases hp : p.1 = k'
    · have hk'k : ¬ k' = k := fun hh => hk1 (hp.trans hh)
      rw [if_neg hk'k]
      simp [find_group, hp]
    · simp only [find_group, if_neg hp]
      rw [ih hk2]
      by_cases h : k' = k
      · rw [if_pos h, if_pos h, if_neg hk1]
      · rw [if_neg h, if_neg h]

/-- Looking a key up after a grouping insertion. -/
theorem find_group_insert {β : Type} (acc : List (String × List β)) (k k' : String) (v : β) :
    find_group k' (insert_grouped acc k v) =
      if k' = k then find_group k acc ++ [v] else find_group k' acc := by
  unfold insert_grouped
  by_cases hk : k ∈ acc.map Prod.fst
  · rw [if_pos hk, find_group_map_update]
    by_cases h : k' = k <;> simp [h, hk, group_keys]
  · rw [if_neg hk]
    exact find_group_append_new k k' v acc hk

/-- Membership after dropping a key. -/
theorem mem_remove_key (k x : String) :
    ∀ l, x ∈ first_seen.remove_key k l ↔ x ∈ l ∧ x ≠ k := by
  intro l
  induction l with
  | nil => simp [first_seen.remove_key]
  | cons y ys ih =>
    by_cases hy : y = k
    · have e : first_seen.remove_key k (y :: ys) = first_seen.remove_key k ys := by
        simp [first_seen.remove_key, hy]
      rw [e, ih]
      simp only [List.mem_cons]
      constructor
      · rintro ⟨hx, hk⟩
        exact ⟨Or.inr hx, hk⟩
      · rintro ⟨hx | hx, hk⟩
        · exact absurd (hx.trans hy) hk
        · exact ⟨hx, hk⟩
    · have e : first_seen.remove_key k (y :: ys) = y :: first_seen.remove_key k ys := by
        simp [first_seen.remove_key, hy]
      rw [e]
      simp only [List.mem_cons, ih]
      constructor
      · rintro (rfl | ⟨hx, hk⟩)
        · exact ⟨Or.inl rfl, hy⟩
        · exact ⟨Or.inr hx, hk⟩
      · rintro ⟨hx | hx, hk⟩
        · exact Or.inl hx
        · exact Or.inr ⟨hx, hk⟩

/-- Dropping a key preserves `Nodup`. -/
theorem nodup_remove_key (k : String) :
    ∀ l, l.Nodup → (first_seen.remove_key k l).Nodup := by
  intro l
  induction l with
  | nil => intro _; simp [first_seen.remove_key]
  | cons y ys ih =>
    intro h
    obtain ⟨hy, hys⟩ := List.nodup_cons.mp h
    by_cases hk : y = k
    · simpa [first_seen.remove_key, hk] using ih hys
    · have e : first_seen.remove_key k (y :: ys) = y :: first_seen.remove_key k ys := by
        simp [first_seen.remove_key, hk]
      rw [e]
      refine List.nodup_cons.mpr ⟨?_, ih hys⟩
      intro hmem
      exact hy ((mem_remove_key k y ys).mp hmem).1

/-- The first-seen key list has no duplicates. -/
theorem first_seen_nodup : ∀ l, (first_seen l).Nodup := by
  intro l
  induction l with
  | nil => simp [first_seen]
  | cons k ks ih =>
    simp only [first_seen]
    refine List.nodup_cons.mpr ⟨?_, nodup_remove_key k _ ih⟩
    intro hmem
    exact ((mem_remove_key k k (first_seen ks)).mp hmem).2 rfl

/-- The first-seen key list has the same members as the original. -/
theorem mem_first_seen (x : String) : ∀ l, x ∈ first_seen l ↔ x ∈ l := by
  intro l
  induction l with
  | nil => simp [first_seen]
  | cons k ks ih =>
    simp only [first_seen, List.mem_cons, mem_remove_key, ih]
    by_cases hx : x = k
    · simp [hx]
    · simp [hx]

/-- Subtracting the empty key set changes nothing. -/
theorem minus_keys_nil (l : List String) : minus_keys l [] = l := by
  induction l with
  | nil => rfl
  | cons x xs ih => simp [minus_keys, ih]

/-- Dropping a key already excluded does not change a subtraction. -/
theorem minus_keys_remove (k : String) (ks : List String) (hk : k ∈ ks) :
    ∀ l, minus_keys (first_seen.remove_key k l) ks = minus_keys l ks := by
  intro l
  induction l with
  | nil => rfl
  | cons x xs ih =>
    by_cases hx : x = k
    · subst hx
      simp [first_seen.remove_key, minus_keys, hk, ih]
    · by_cases hxk : x ∈ ks
      · simp [first_seen.remove_key, hx, minus_keys, hxk, ih]
      · simp [first_seen.remove_key, hx, minus_keys, hxk, ih]

/-- Dropping a key is the same as adding it to the subtracted set. -/
theorem minus_keys_remove_append (k : String) (ks : List String) :
    ∀ l, minus_keys (first_seen.remove_key k l) ks = minus_keys l (ks ++ [k]) := by
  intro l
  induction l with
  | nil => rfl
  | cons x xs ih =>
    by_cases hx : x = k
    · subst hx
      simp [first_seen.remove_key, minus_keys, ih, List.mem_append]
    · by_cases hxk : x ∈ ks
      · simp [first_seen.remove_key, hx, minus_keys, hxk, List.mem_append, ih]
      · simp [first_seen.remove_key, hx, minus_keys, hxk, List.mem_append, ih]

/-- Keys of the grouping dictionary built by the loop: the keys already in
the accumulator, then the new keys in first-seen order. -/
theorem group_by_aux_keys {β : Type} (key : Rule → Option String) (val : Rule → Option β) :
    ∀ (rs : List Rule) (acc gs : List (String × List β)),
      group_by_aux key val acc rs = some gs →
      group_keys gs =
        group_keys acc ++ minus_keys (first_seen (rs.filterMap key)) (group_keys acc) := by
  intro rs
  induction rs with
  | nil =>
    intro acc gs h
    simp [group_by_aux] at h
    subst h
    simp [first_seen, minus_keys]
  | cons r rs ih =>
    intro acc gs h
    cases hk0 : key r with
    | none => simp [group_by_aux, hk0] at h
    | some k0 =>
      cases hv : val r with
      | none => simp [group_by_aux, hk0, hv] at h
      | some v =>
        simp only [group_by_aux, hk0, hv] at h
        have H := ih (insert_grouped acc k0 v) gs h
        rw [H, group_keys_insert]
        simp only [List.filterMap_cons, hk0]
        rw [show first_seen (k0 :: List.filterMap key rs) =
              k0 :: first_seen.remove_key k0 (first_seen (List.filterMap key rs)) from rfl]
        rw [show minus_keys
              (k0 :: first_seen.remove_key k0 (first_seen (List.filterMap key rs)))
              (group_keys acc) =
            if k0 ∈ group_keys acc then
              minus_keys (first_seen.remove_key k0 (first_seen (List.filterMap key rs)))
                (group_keys acc)
            else k0 :: minus_keys (first_seen.remove_key k0 (first_seen (List.filterMap key rs)))
              (group_keys acc) from rfl]
        by_cases hmem : k0 ∈ group_keys acc
        · rw [if_pos hmem, if_pos hmem, minus_keys_remove _ _ hmem]
        · rw [if_neg hmem, if_neg hmem, minus_keys_remove_append]
          simp

/-- Value lists of the grouping dictionary built by the loop: values already
accumulated, then the values contributed by the rules with that key, in rule
order. -/
theorem group_by_aux_find {β : Type} (key : Rule → Option String) (val : Rule → Option β) :
    ∀ (rs : List Rule) (acc gs : List (String × List β)),
      group_by_aux key val acc rs = some gs →
      ∀ k, find_group k gs =
        find_group k acc ++ (rs.filter (fun r => decide (key r = some k))).filterMap val := by
  intro rs
  induction rs with
  | nil =>
    intro acc gs h k
    simp [group_by_aux] at h
    subst h
    simp
  | cons r rs ih =>
    intro acc gs h k
    cases hk0 : key r with
    | none => simp [group_by_aux, hk0] at h
    | some k0 =>
      cases hv : val r with
      | none => simp [group_by_aux, hk0, hv] at h
      | some v =>
        simp only [group_by_aux, hk0, hv] at h
        rw [ih (insert_grouped acc k0 v) gs h k, find_group_insert]
        by_cases hkk : k = k0
        · subst hkk
          rw [if_pos rfl]
          simp [List.filter_cons, hk0, hv, List.append_assoc]
        · rw [if_neg hkk]
          have : ¬ (key r = some k) := by
            rw [hk0]
            intro hh
            exact hkk (Option.some.inj hh).symm
          simp [List.filter_cons, this]

/-- The grouping loop succeeds when every rule yields a key and a value. -/
theorem group_by_aux_isSome {β : Type} (key : Rule → Option String) (val : Rule → Option β) :
    ∀ (rs : List Rule) (acc : List (String × List β)),
      (∀ r ∈ rs, (key r).isSome ∧ (val r).isSome) →
      (group_by_aux key val acc rs).isSome := by
  intro rs
  induction rs with
  | nil => intro acc _; simp [group_by_aux]
  | cons r rs ih =>
    intro acc h
    obtain ⟨hk, hv⟩ := h r (List.mem_cons_self r rs)
    obtain ⟨k0, hk0⟩ := Option.isSome_iff_exists.mp hk
    obtain ⟨v, hv0⟩ := Option.isSome_iff_exists.mp hv
    simp only [group_by_aux, hk0, hv0]
    exact ih _ (fun x hx => h x (List.mem_cons_of_mem r hx))

/-- In a grouping with distinct keys, a member's value list is its lookup. -/
theorem snd_eq_find_group {β : Type} :
    ∀ (gs : List (String × List β)), (group_keys gs).Nodup →
      ∀ p ∈ gs, p.2 = find_group p.1 gs := by
  intro gs
  induction gs with
  | nil => intro _ p hp; simp at hp
  | cons q qs ih =>
    intro hnd p hp
    rw [group_keys, List.map_cons] at hnd
    obtain ⟨hq, hqs⟩ := List.nodup_cons.mp hnd
    rcases List.mem_cons.mp hp with rfl | hp'
    · simp [find_group]
    · have hne : ¬ q.1 = p.1 := by
        intro hh
        exact hq (hh ▸ List.mem_map_of_mem Prod.fst hp')
      rw [show find_group p.1 (q :: qs) = if q.1 = p.1 then q.2 else find_group p.1 qs from rfl,
        if_neg hne]
      exact ih hqs p hp'

/-- Identity traversal-style filterMap. -/
theorem filterMap_pure {α : Type} : ∀ l : List α, l.filterMap (fun a => some a) = l := by
  intro l
  induction l with
  | nil => rfl
  | cons a as ih => simp [List.filterMap_cons, ih]

/-- Keys of the `rules_by_dest` grouping: the destinations in first-seen order. -/
theorem rules_by_dest_keys {rules : List Rule} {gs : List (String × List Rule)}
    (h : rules_by_dest rules = some gs) :
    group_keys gs = first_seen (rules.filterMap (fun r => r.«to»)) := by
  have H := group_by_aux_keys (fun r => r.«to») (fun r => some r) rules [] gs h
  simpa [group_keys, minus_keys_nil] using H

/-- Groups of `rules_by_dest`: the rules with that destination, in rule order. -/
theorem rules_by_dest_find {rules : List Rule} {gs : List (String × List Rule)}
    (h : rules_by_dest rules = some gs) (k : String) :
    find_group k gs = rules.filter (fun r => decide (r.«to» = some k)) := by
  have H := group_by_aux_find (fun r => r.«to») (fun r => some r) rules [] gs h k
  simpa [find_group, filterMap_pure] using H

/-- Keys of the `_extract_egress_rules` grouping: sources in first-seen order. -/
theorem extract_egress_keys {rules : List Rule} {gs : List (String × List EgressDest)}
    (h : extract_egress_rules rules = some gs) :
    group_keys gs = first_seen (rules.filterMap (fun r => r.«from»)) := by
  have H := group_by_aux_keys (fun r => r.«from») mk_egress_dest rules [] gs h
  simpa [group_keys, minus_keys_nil] using H

/-- Groups of `_extract_egress_rules`: the extracted destination dictionaries
of the rules with that source, in rule order. -/
theorem extract_egress_find {rules : List Rule} {gs : List (String × List EgressDest)}
    (h : extract_egress_rules rules = some gs) (k : String) :
    find_group k gs =
      (rules.filter (fun r => decide (r.«from» = some k))).filterMap mk_egress_dest := by
  have H := group_by_aux_find (fun r => r.«from») mk_egress_dest rules [] gs h k
  simpa [find_group] using H

/-- Explicit shape of a successful `_generate_ingress_policy` call. -/
theorem generate_ingress_policy_eq_some {dest_service : String} {rules : List Rule}
    {ns intent_name now : String} {m : Manifest}
    (h : generate_ingress_policy dest_service rules ns intent_name now = some m) :
    ∃ es srcs, option_traverse (ingress_entry ns) rules = some es ∧
      option_traverse (fun r => r.«from») rules = some srcs ∧
      m = { apiVersion := "networking.k8s.io/v1"
            kind := "NetworkPolicy"
            metadata :=
              { name := "allow-ingress-to-" ++ dest_service
                «namespace» := ns
                labels := [("app.kubernetes.io/managed-by", "k8s-policy-generator"),
                           ("policy-type", "ingress"),
                           ("target-service", dest_service),
                           ("intent", intent_name)]
                annotations := [("description", "Allow ingress traffic to " ++ dest_service),
                                ("generated-at", now),
                                ("allowed-sources", String.intercalate "," srcs)] }
            spec := { podSelector := some dest_service
                      policyTypes := ["Ingress"]
                      ingress := some es
                      egress := none } } := by
  simp only [generate_ingress_policy, Option.bind_eq_some, Option.map_eq_some'] at h
  obtain ⟨es, h1, srcs, h2, h3⟩ := h
  exact ⟨es, srcs, h1, h2, h3.symm⟩

/-- `_generate_ingress_policy` succeeds when every rule in the group has a
`from` field. -/
theorem generate_ingress_policy_isSome {dest_service : String} {rules : List Rule}
    {ns intent_name now : String} (h : ∀ r ∈ rules, (r.«from»).isSome) :
    (generate_ingress_policy dest_service rules ns intent_name now).isSome := by
  have h1 : (option_traverse (ingress_entry ns) rules).isSome := by
    apply option_traverse_isSome
    intro r hr
    obtain ⟨f, hf⟩ := Option.isSome_iff_exists.mp (h r hr)
    simp [ingress_entry, hf]
  have h2 : (option_traverse (fun r => r.«from») rules).isSome :=
    option_traverse_isSome h
  obtain ⟨es, hes⟩ := Option.isSome_iff_exists.mp h1
  obtain ⟨srcs, hsrcs⟩ := Option.isSome_iff_exists.mp h2
  simp [generate_ingress_policy, hes, hsrcs]

/-- Decomposition of a successful `generate` call into its three stages. -/
theorem generate_eq_some {intent : Intent} {now : String} {ps : List Manifest}
    (h : generate intent now = some ps) :
    ∃ gsI ims gsE,
      rules_by_dest (intent_rule_list intent) = some gsI ∧
      option_traverse
        (fun p => generate_ingress_policy p.1 p.2 (intent_ns intent) (intent_label intent) now)
        gsI = some ims ∧
      extract_egress_rules (intent_rule_list intent) = some gsE ∧
      ps = generate_default_deny (intent_ns intent) now ::
        (ims ++ gsE.map
          (fun p =>
            generate_egress_policy p.1 p.2 (intent_ns intent) (intent_label intent) now)) := by
  simp only [generate, Option.bind_eq_some, Option.map_eq_some'] at h
  obtain ⟨gsI, h1, ims, h2, gsE, h3, h4⟩ := h
  exact ⟨gsI, ims, gsE, h1, h2, h3, h4.symm⟩

/-- Erasing the timestamp makes the default-deny manifest time-independent. -/
theorem erase_default_deny (ns t1 t2 : String) :
    erase_generated_at (generate_default_deny ns t1) =
      erase_generated_at (generate_default_deny ns t2) := rfl

/-- Erasing the timestamp makes an egress policy time-independent. -/
theorem erase_egress_policy (s : String) (ds : List EgressDest) (ns nm t1 t2 : String) :
    erase_generated_at (generate_egress_policy s ds ns nm t1) =
      erase_generated_at (generate_egress_policy s ds ns nm t2) := rfl

/-- Erasing the timestamp makes an ingress policy time-independent. -/
theorem erase_ingress_policy (d : String) (g : List Rule) (ns nm t1 t2 : String) :
    (generate_ingress_policy d g ns nm t1).map erase_generated_at =
      (generate_ingress_policy d g ns nm t2).map erase_generated_at := by
  simp only [generate_ingress_policy]
  cases h1 : option_traverse (ingress_entry ns) g with
  | none => rfl
  | some es =>
    cases h2 : option_traverse (fun r => r.«from») g with
    | none => rfl
    | some srcs => rfl

/-- C6: `generate` called twice on the same unchanged intent yields manifest
lists equal in every field except the `generated-at` timestamp annotation;
modulo that annotation the output is a deterministic function of the intent
alone (the two calls are modelled by two arbitrary timestamps). -/
theorem C6_deterministic_modulo_timestamp (intent : Intent) (t1 t2 : String) :
    (generate intent t1).map (fun ps => ps.map erase_generated_at) =
      (generate intent t2).map (fun ps => ps.map erase_generated_at) := by
  simp only [generate]
  cases h1 : rules_by_dest (intent_rule_list intent) with
  | none => rfl
  | some gsI =>
    simp only [Option.some_bind]
    have hcong := option_traverse_map_congr
      (fun p => generate_ingress_policy p.1 p.2 (intent_ns intent) (intent_label intent) t1)
      (fun p => generate_ingress_policy p.1 p.2 (intent_ns intent) (intent_label intent) t2)
      erase_generated_at gsI
      (fun p _ => erase_ingress_policy p.1 p.2 (intent_ns intent) (intent_label intent) t1 t2)
    cases hA : option_traverse
        (fun p => generate_ingress_policy p.1 p.2 (intent_ns intent) (intent_label intent) t1)
        gsI with
    | none =>
      cases hB : option_traverse
          (fun p => generate_ingress_policy p.1 p.2 (intent_ns intent) (intent_label intent) t2)
          gsI with
      | none => rfl
      | some ims2 => rw [hA, hB] at hcong; simp at hcong
    | some ims1 =>
      cases hB : option_traverse
          (fun p => generate_ingress_policy p.1 p.2 (intent_ns intent) (intent_label intent) t2)
          gsI with
      | none => rw [hA, hB] at hcong; simp at hcong
      | some ims2 =>
        rw [hA, hB] at hcong
        simp only [Option.map_some'] at hcong
        have hI : List.map erase_generated_at ims1 = List.map erase_generated_at ims2 :=
          Option.some.inj hcong
        simp only [Option.some_bind]
        cases h3 : extract_egress_rules (intent_rule_list intent) with
        | none => rfl
        | some gsE =>
          simp only [Option.map_some', List.map_cons, List.map_append, List.map_map]
          have hE : List.map (erase_generated_at ∘ fun p =>
              generate_egress_policy p.1 p.2 (intent_ns intent) (intent_label intent) t1) gsE =
            List.map (erase_generated_at ∘ fun p =>
              generate_egress_policy p.1 p.2 (intent_ns intent) (intent_label intent) t2) gsE := by
            apply List.map_congr_left
            intro p _
            simp only [Function.comp_apply]
            exact erase_egress_policy p.1 p.2 (intent_ns intent) (intent_label intent) t1 t2
          rw [hI, hE]
          rfl

/-- C8: when the `rules` key is absent, `validate_intent` reports
`valid = false` and its error list is exactly the one message naming the
missing `rules` field. -/
theorem C8_missing_rules (intent : Intent) (h : intent.rules = none) :
    (validate_intent intent).valid = false ∧
    (validate_intent intent).errors = ["Missing \x27rules\x27 field in intent"] := by
  constructor <;> simp [validate_intent, h, intent_rule_list, rule_messages]

/-- Witness for C8 at a concrete intent without a `rules` key. -/
theorem C8_missing_rules_witness :
    (validate_intent intent_norules).valid = false ∧
    (validate_intent intent_norules).errors = ["Missing \x27rules\x27 field in intent"] :=
  C8_missing_rules intent_norules rfl

/-- C10: whenever the rule list is missing or empty (Python falsiness of
`intent.get("rules")`), the warning `No rules defined in intent` is emitted;
in particular for an absent `rules` key it appears alongside the
missing-field error. -/
theorem C10_warning_on_missing_rules (intent : Intent) (h : intent_rule_list intent = []) :
    "No rules defined in intent" ∈ (validate_intent intent).warnings ∧
    (intent.rules = none →
      "Missing \x27rules\x27 field in intent" ∈ (validate_intent intent).errors) := by
  constructor
  · simp [validate_intent, h, rule_messages]
  · intro h2
    simp [validate_intent, h2, intent_rule_list, rule_messages]

/-- Witness for C10: with the `rules` key absent both the warning and the
error are present. -/
theorem C10_warning_on_missing_rules_witness :
    "No rules defined in intent" ∈ (validate_intent intent_norules).warnings ∧
    "Missing \x27rules\x27 field in intent" ∈ (validate_intent intent_norules).errors :=
  ⟨(C10_warning_on_missing_rules intent_norules rfl).1,
   (C10_warning_on_missing_rules intent_norules rfl).2 rfl⟩

/-- Shape of a successful ingress-entry construction. -/
theorem ingress_entry_shape {ns : String} {r : Rule} {e : Entry}
    (h : ingress_entry ns r = some e) :
    ∃ f, r.«from» = some f ∧
      e = { peers := [{ app := f,
                        namespaceSelector :=
                          if (r.«namespace»).getD ns ≠ ns
                          then some ((r.«namespace»).getD ns) else none }],
            ports := port_field r.ports ((r.protocols).getD ["TCP"]) } := by
  simp only [ingress_entry, Option.map_eq_some'] at h
  obtain ⟨f, hf, he⟩ := h
  exact ⟨f, hf, he.symm⟩

/-- Shape of a successful egress-destination extraction. -/
theorem mk_egress_dest_shape {r : Rule} {d : EgressDest}
    (h : mk_egress_dest r = some d) :
    ∃ t, r.«to» = some t ∧
      d = { «to» := t
            ports := r.ports
            protocols := (r.protocols).getD ["TCP"]
            «namespace» := (r.«namespace»).getD "default" } := by
  simp only [mk_egress_dest, Option.map_eq_some'] at h
  obtain ⟨t, ht, hd⟩ := h
  exact ⟨t, ht, hd.symm⟩

/-- A rule in an ingress group belongs to the original rule list and names
the group key as its destination. -/
theorem mem_group_rules_by_dest {rules : List Rule} {gs : List (String × List Rule)}
    (h : rules_by_dest rules = some gs) {p : String × List Rule} (hp : p ∈ gs) :
    ∀ r ∈ p.2, r ∈ rules ∧ r.«to» = some p.1 := by
  have hnd : (group_keys gs).Nodup := by
    rw [rules_by_dest_keys h]
    exact first_seen_nodup _
  have hfind := snd_eq_find_group gs hnd p hp
  rw [rules_by_dest_find h] at hfind
  intro r hr
  rw [hfind] at hr
  have hm := List.mem_filter.mp hr
  exact ⟨hm.1, by simpa using hm.2⟩

/-- A destination dictionary in an egress group comes from a rule of the
original list whose source is the group key. -/
theorem mem_group_extract_egress {rules : List Rule} {gs : List (String × List EgressDest)}
    (h : extract_egress_rules rules = some gs) {p : String × List EgressDest} (hp : p ∈ gs) :
    ∀ d ∈ p.2, ∃ r ∈ rules, mk_egress_dest r = some d ∧ r.«from» = some p.1 := by
  have hnd : (group_keys gs).Nodup := by
    rw [extract_egress_keys h]
    exact first_seen_nodup _
  have hfind := snd_eq_find_group gs hnd p hp
  rw [extract_egress_find h] at hfind
  intro d hd
  rw [hfind] at hd
  obtain ⟨r, hr, hmk⟩ := List.mem_filterMap.mp hd
  have hm := List.mem_filter.mp hr
  exact ⟨r, hm.1, hmk, by simpa using hm.2⟩

/-- Every rule entry in `generate`'s output is derived from a rule of the
intent: ingress entries through `ingress_entry`, egress entries through
`mk_egress_dest` and `egress_entry` — except the one appended DNS entry. -/
theorem generate_entries_sourced (intent : Intent) (now : String) (ps : List Manifest)
    (h : generate intent now = some ps) :
    (∀ m ∈ ps, ∀ es, m.spec.ingress = some es → ∀ e ∈ es,
      ∃ r ∈ intent_rule_list intent, ingress_entry (intent_ns intent) r = some e) ∧
    (∀ m ∈ ps, ∀ es, m.spec.egress = some es → ∀ e ∈ es,
      e = dns_egress_rule ∨
      ∃ r ∈ intent_rule_list intent, ∃ d, mk_egress_dest r = some d ∧
        e = egress_entry (intent_ns intent) d) := by
  obtain ⟨gsI, ims, gsE, h1, h2, h3, hps⟩ := generate_eq_some h
  subst hps
  constructor
  · intro m hm es hes e he
    rcases List.mem_cons.mp hm with rfl | hm'
    · simp [generate_default_deny] at hes
    rcases List.mem_append.mp hm' with hmi | hme
    · obtain ⟨p, hp, hgip⟩ := option_traverse_mem h2 m hmi
      obtain ⟨es', srcs, hot, _, hm_eq⟩ := generate_ingress_policy_eq_some hgip
      rw [hm_eq] at hes
      simp only [Option.some.injEq] at hes
      subst hes
      obtain ⟨r, hr, hre⟩ := option_traverse_mem hot e he
      exact ⟨r, (mem_group_rules_by_dest h1 hp r hr).1, hre⟩
    · obtain ⟨p, hp, hme_eq⟩ := List.mem_map.mp hme
      rw [← hme_eq] at hes
      simp [generate_egress_policy] at hes
  · intro m hm es hes e he
    rcases List.mem_cons.mp hm with rfl | hm'
    · simp [generate_default_deny] at hes
    rcases List.mem_append.mp hm' with hmi | hme
    · obtain ⟨p, hp, hgip⟩ := option_traverse_mem h2 m hmi
      obtain ⟨es', srcs, _, _, hm_eq⟩ := generate_ingress_policy_eq_some hgip
      rw [hm_eq] at hes
      simp at hes
    · obtain ⟨p, hp, hme_eq⟩ := List.mem_map.mp hme
      rw [← hme_eq] at hes
      simp only [generate_egress_policy, Option.some.injEq] at hes
      subst hes
      rcases List.mem_append.mp he with hel | her
      · obtain ⟨d, hd, he_eq⟩ := List.mem_map.mp hel
        obtain ⟨r, hr, hmk, _⟩ := mem_group_extract_egress h3 hp d hd
        exact Or.inr ⟨r, hr, d, hmk, he_eq.symm⟩
      · exact Or.inl (List.mem_singleton.mp her)

/-- C3: every egress manifest produced by `generate` ends with exactly one
DNS rule entry — empty peer selector, port list `[(53,UDP),(53,TCP)]` —
appended unconditionally as the final entry; it is the unique entry with an
empty peer selector, no matter how many rules the source group holds. -/
theorem C3_dns_invariant (intent : Intent) (now : String) (ps : List Manifest)
    (h : generate intent now = some ps) :
    ∀ m ∈ ps, ∀ es, m.spec.egress = some es →
      es.getLast? = some dns_egress_rule ∧
      es.countP (fun e => e.peers.isEmpty) = 1 := by
  obtain ⟨gsI, ims, gsE, h1, h2, h3, hps⟩ := generate_eq_some h
  subst hps
  intro m hm es hes
  rcases List.mem_cons.mp hm with rfl | hm'
  · simp [generate_default_deny] at hes
  rcases List.mem_append.mp hm' with hmi | hme
  · obtain ⟨p, hp, hgip⟩ := option_traverse_mem h2 m hmi
    obtain ⟨es', srcs, _, _, hm_eq⟩ := generate_ingress_policy_eq_some hgip
    rw [hm_eq] at hes
    simp at hes
  · obtain ⟨p, hp, hme_eq⟩ := List.mem_map.mp hme
    rw [← hme_eq] at hes
    simp only [generate_egress_policy, Option.some.injEq] at hes
    subst hes
    constructor
    · exact List.getLast?_concat _
    · rw [List.countP_append]
      have hz : (List.map (egress_entry (intent_ns intent)) p.2).countP
          (fun e => e.peers.isEmpty) = 0 := by
        apply List.countP_eq_zero.mpr
        intro e he'
        obtain ⟨d, _, he_eq⟩ := List.mem_map.mp he'
        rw [← he_eq]
        simp [egress_entry]
      rw [hz]
      simp [List.countP_cons, dns_egress_rule]

/-- Witness for C3 at Scenario A: the egress manifest of `intent_a` carries
the DNS entry last and as its only empty-peer entry. -/
theorem C3_dns_invariant_witness :
    es_a.getLast? = some dns_egress_rule ∧
    es_a.countP (fun e => e.peers.isEmpty) = 1 :=
  C3_dns_invariant intent_a "T" ((generate intent_a "T").getD []) rfl
    (((generate intent_a "T").getD []).get ⟨2, by decide⟩)
    (List.get_mem _ _ _) es_a rfl

/-- C1 (amended): an ingress rule entry carries a namespace selector iff the
rule's namespace — defaulting to the intent namespace — differs from the
policy namespace, exactly as claimed; but an egress rule entry resolves an
absent rule namespace to the literal string `"default"` (the hard-coded
default of `_extract_egress_rules`), not to the intent namespace, and its
selector is present iff that value differs from the policy namespace. -/
theorem C1_namespace_selector (intent : Intent) (now : String) (ps : List Manifest)
    (h : generate intent now = some ps) :
    (∀ m ∈ ps, ∀ es, m.spec.ingress = some es → ∀ e ∈ es,
      ∃ r ∈ intent_rule_list intent, ingress_entry (intent_ns intent) r = some e ∧
        ∃ sel, e.peers = [sel] ∧
          sel.namespaceSelector =
            (if (r.«namespace»).getD (intent_ns intent) ≠ intent_ns intent
             then some ((r.«namespace»).getD (intent_ns intent)) else none)) ∧
    (∀ m ∈ ps, ∀ es, m.spec.egress = some es → ∀ e ∈ es,
      e = dns_egress_rule ∨
      ∃ r ∈ intent_rule_list intent, ∃ d, mk_egress_dest r = some d ∧
        e = egress_entry (intent_ns intent) d ∧
        ∃ sel, e.peers = [sel] ∧
          sel.namespaceSelector =
            (if (r.«namespace»).getD "default" ≠ intent_ns intent
             then some ((r.«namespace»).getD "default") else none)) := by
  obtain ⟨HI, HE⟩ := generate_entries_sourced intent now ps h
  constructor
  · intro m hm es hes e he
    obtain ⟨r, hr, hre⟩ := HI m hm es hes e he
    obtain ⟨f, _, he_eq⟩ := ingress_entry_shape hre
    subst he_eq
    exact ⟨r, hr, hre, _, rfl, rfl⟩
  · intro m hm es hes e he
    rcases HE m hm es hes e he with hdns | ⟨r, hr, d, hmk, he_eq⟩
    · exact Or.inl hdns
    · obtain ⟨t, _, hd_eq⟩ := mk_egress_dest_shape hmk
      subst he_eq
      subst hd_eq
      exact Or.inr ⟨r, hr, _, hmk, rfl, _, rfl, rfl⟩

/-- Counterexample to C1 as stated: in `intent_prod` (intent namespace
`prod`) the single rule has no `namespace` field, so by the claim the egress
rule entry should carry no namespace selector (resolved namespace = intent
namespace = policy namespace); the generated egress entry instead carries
`namespaceSelector = "default"`, because `_extract_egress_rules` defaults an
absent rule namespace to the literal `"default"`, not the intent namespace. -/
theorem C1_counterexample :
    intent_prod.rules = some [{ «from» := some "a", «to» := some "b",
                                ports := none, protocols := none, «namespace» := none }] ∧
    intent_ns intent_prod = "prod" ∧
    (generate intent_prod "T").map
        (fun ps => ps.map (fun m =>
          (m.spec.egress).map (fun es => es.map (fun e =>
            e.peers.map (fun p => p.namespaceSelector))))) =
      some [none, none, some [[some "default"], []]] := by
  refine ⟨rfl, rfl, ?_⟩
  rfl

/-- Witness for C1 at `intent_web`: the ingress entry for the rule with
namespace `web` (intent namespace `default`) carries the selector. -/
theorem C1_namespace_selector_witness :
    ∃ r ∈ intent_rule_list intent_web,
      ingress_entry (intent_ns intent_web) r = some entry_web ∧
      ∃ sel, entry_web.peers = [sel] ∧
        sel.namespaceSelector =
          (if (r.«namespace»).getD (intent_ns intent_web) ≠ intent_ns intent_web
           then some ((r.«namespace»).getD (intent_ns intent_web)) else none) :=
  (C1_namespace_selector intent_web "T" ((generate intent_web "T").getD []) rfl).1
    (((generate intent_web "T").getD []).get ⟨1, by decide⟩)
    (List.get_mem _ _ _) [entry_web] rfl entry_web (by decide)

/-- C5: the port list of every generated rule entry (DNS entry aside) is the
`port_field` of its rule: the ports-outer/protocols-inner cartesian
expansion `expand_ports`, with protocols defaulting to `["TCP"]`, and no
`ports` key at all when `ports` is absent or present-but-empty. -/
theorem C5_port_expansion (intent : Intent) (now : String) (ps : List Manifest)
    (h : generate intent now = some ps) :
    (∀ m ∈ ps, ∀ es, m.spec.ingress = some es → ∀ e ∈ es,
      ∃ r ∈ intent_rule_list intent,
        ingress_entry (intent_ns intent) r = some e ∧
        e.ports = port_field r.ports ((r.protocols).getD ["TCP"])) ∧
    (∀ m ∈ ps, ∀ es, m.spec.egress = some es → ∀ e ∈ es,
      (e = dns_egress_rule ∧
        e.ports = some [{ port := 53, protocol := "UDP" },
                        { port := 53, protocol := "TCP" }]) ∨
      ∃ r ∈ intent_rule_list intent,
        e.ports = port_field r.ports ((r.protocols).getD ["TCP"])) := by
  obtain ⟨HI, HE⟩ := generate_entries_sourced intent now ps h
  constructor
  · intro m hm es hes e he
    obtain ⟨r, hr, hre⟩ := HI m hm es hes e he
    obtain ⟨f, _, he_eq⟩ := ingress_entry_shape hre
    subst he_eq
    exact ⟨r, hr, hre, rfl⟩
  · intro m hm es hes e he
    rcases HE m hm es hes e he with hdns | ⟨r, hr, d, hmk, he_eq⟩
    · exact Or.inl ⟨hdns, by rw [hdns]; rfl⟩
    · obtain ⟨t, _, hd_eq⟩ := mk_egress_dest_shape hmk
      subst he_eq
      subst hd_eq
      exact Or.inr ⟨r, hr, rfl⟩

/-- Witness for C5 at Scenario A: the ingress entry for the 8080/TCP rule
has port list `[(8080, TCP)]`. -/
theorem C5_port_expansion_witness :
    ∃ r ∈ intent_rule_list intent_a,
      ingress_entry (intent_ns intent_a) r = some entry_a ∧
      entry_a.ports = port_field r.ports ((r.protocols).getD ["TCP"]) :=
  (C5_port_expansion intent_a "T" ((generate intent_a "T").getD []) rfl).1
    (((generate intent_a "T").getD []).get ⟨1, by decide⟩)
    (List.get_mem _ _ _) [entry_a] rfl entry_a (by decide)

/-- C2 (amended): every distinct destination named in the rules is targeted
by exactly one ingress manifest — the ingress manifests' pod selectors are
precisely the distinct destinations, without duplicates, in first-seen
order — and that manifest contains exactly one ingress rule entry per RULE
naming that destination, in rule order (hence one entry per distinct source
only when no two rules repeat a source/destination pair). -/
theorem C2_ingress_grouping (intent : Intent) (now : String) (ps : List Manifest)
    (h : generate intent now = some ps) :
    ∃ ims ems,
      ps = generate_default_deny (intent_ns intent) now :: (ims ++ ems) ∧
      ims.map (fun m => m.spec.podSelector) =
        (first_seen ((intent_rule_list intent).filterMap (fun r => r.«to»))).map some ∧
      (first_seen ((intent_rule_list intent).filterMap (fun r => r.«to»))).Nodup ∧
      (∀ m ∈ ems, m.spec.ingress = none) ∧
      (∀ m ∈ ims, ∀ d, m.spec.podSelector = some d →
        ∃ es, option_traverse (ingress_entry (intent_ns intent))
            ((intent_rule_list intent).filter (fun r => decide (r.«to» = some d))) = some es ∧
          m.spec.ingress = some es ∧
          es.length =
            ((intent_rule_list intent).filter (fun r => decide (r.«to» = some d))).length) := by
  obtain ⟨gsI, ims, gsE, h1, h2, h3, hps⟩ := generate_eq_some h
  refine ⟨ims,
    gsE.map (fun p =>
      generate_egress_policy p.1 p.2 (intent_ns intent) (intent_label intent) now),
    hps, ?_, first_seen_nodup _, ?_, ?_⟩
  · have hmap : ims.map (fun m => m.spec.podSelector) = gsI.map (fun p => some p.1) :=
      option_traverse_map h2 (fun p _ m hm => by
        obtain ⟨es', srcs, _, _, hm_eq⟩ := generate_ingress_policy_eq_some hm
        rw [hm_eq])
    rw [hmap, ← rules_by_dest_keys h1]
    simp [group_keys, List.map_map, Function.comp]
  · intro m hm
    obtain ⟨p, _, hm_eq⟩ := List.mem_map.mp hm
    rw [← hm_eq]
    rfl
  · intro m hm d hd
    obtain ⟨p, hp, hgip⟩ := option_traverse_mem h2 m hm
    obtain ⟨es', srcs, hot, _, hm_eq⟩ := generate_ingress_policy_eq_some hgip
    have hd' : d = p.1 := by
      rw [hm_eq] at hd
      exact (Option.some.inj hd).symm
    subst hd'
    have hnd : (group_keys gsI).Nodup := by
      rw [rules_by_dest_keys h1]
      exact first_seen_nodup _
    have hfind := snd_eq_find_group gsI hnd p hp
    rw [rules_by_dest_find h1] at hfind
    refine ⟨es', ?_, by rw [hm_eq], ?_⟩
    · rw [← hfind]
      exact hot
    · rw [← hfind]
      exact option_traverse_length hot

/-- Counterexample to C2 as stated: `intent_dup` has two rules with the same
source `a` and destination `b` (ports 80 and 443).  There is a single
distinct source, yet the one ingress manifest for `b` contains two rule
entries, both with peer `a` — not "exactly one entry per distinct source". -/
theorem C2_counterexample :
    first_seen ((intent_rule_list intent_dup).filterMap (fun r => r.«from»)) = ["a"] ∧
    (generate intent_dup "T").map
        (fun ps => ps.map (fun m => (m.spec.ingress).map (fun es =>
          es.map (fun e => e.peers.map (fun p => p.app))))) =
      some [none, some [["a"], ["a"]], none] := by
  constructor
  · rfl
  · rfl

/-- Witness for C2 at Scenario A. -/
theorem C2_ingress_grouping_witness :
    ∃ ims ems,
      (generate intent_a "T").getD [] =
        generate_default_deny (intent_ns intent_a) "T" :: (ims ++ ems) ∧
      ims.map (fun m => m.spec.podSelector) =
        (first_seen ((intent_rule_list intent_a).filterMap (fun r => r.«to»))).map some ∧
      (first_seen ((intent_rule_list intent_a).filterMap (fun r => r.«to»))).Nodup ∧
      (∀ m ∈ ems, m.spec.ingress = none) ∧
      (∀ m ∈ ims, ∀ d, m.spec.podSelector = some d →
        ∃ es, option_traverse (ingress_entry (intent_ns intent_a))
            ((intent_rule_list intent_a).filter (fun r => decide (r.«to» = some d))) = some es ∧
          m.spec.ingress = some es ∧
          es.length =
            ((intent_rule_list intent_a).filter (fun r => decide (r.«to» = some d))).length) :=
  C2_ingress_grouping intent_a "T" ((generate intent_a "T").getD []) rfl

/-- An ingress manifest never carries the default-deny label. -/
theorem is_default_deny_ingress {d : String} {g : List Rule} {ns nm now : String}
    {m : Manifest} (h : generate_ingress_policy d g ns nm now = some m) :
    is_default_deny m = false := by
  obtain ⟨es, srcs, _, _, hm_eq⟩ := generate_ingress_policy_eq_some h
  subst hm_eq
  simp [is_default_deny]

/-- An egress manifest never carries the default-deny label. -/
theorem is_default_deny_egress (s : String) (ds : List EgressDest) (ns nm now : String) :
    is_default_deny (generate_egress_policy s ds ns nm now) = false := by
  simp [is_default_deny, generate_egress_policy]

/-- C4 (amended): the manifest list of `generate` is in canonical order —
one default-deny manifest first, then the ingress manifests in destination
first-seen order, then the egress manifests in source first-seen order —
and it contains exactly one default-deny manifest, which is for the
INTENT's namespace only (namespaces referenced only by rules receive no
default-deny manifest of their own). -/
theorem C4_canonical_order (intent : Intent) (now : String) (ps : List Manifest)
    (h : generate intent now = some ps) :
    ∃ ims ems,
      ps = generate_default_deny (intent_ns intent) now :: (ims ++ ems) ∧
      (generate_default_deny (intent_ns intent) now).metadata.«namespace» = intent_ns intent ∧
      is_default_deny (generate_default_deny (intent_ns intent) now) = true ∧
      ps.countP is_default_deny = 1 ∧
      ims.map (fun m => m.spec.podSelector) =
        (first_seen ((intent_rule_list intent).filterMap (fun r => r.«to»))).map some ∧
      ems.map (fun m => m.spec.podSelector) =
        (first_seen ((intent_rule_list intent).filterMap (fun r => r.«from»))).map some ∧
      (∀ m ∈ ims, m.spec.policyTypes = ["Ingress"]) ∧
      (∀ m ∈ ems, m.spec.policyTypes = ["Egress"]) := by
  obtain ⟨gsI, ims, gsE, h1, h2, h3, hps⟩ := generate_eq_some h
  have hims_dd : ∀ m ∈ ims, is_default_deny m = false := by
    intro m hm
    obtain ⟨p, _, hgip⟩ := option_traverse_mem h2 m hm
    exact is_default_deny_ingress hgip
  refine ⟨ims,
    gsE.map (fun p =>
      generate_egress_policy p.1 p.2 (intent_ns intent) (intent_label intent) now),
    hps, rfl, rfl, ?_, ?_, ?_, ?_, ?_⟩
  · rw [hps, List.countP_cons, List.countP_append]
    have hz1 : ims.countP is_default_deny = 0 :=
      List.countP_eq_zero.mpr (fun m hm => by simp [hims_dd m hm])
    have hz2 : (gsE.map (fun p =>
        generate_egress_policy p.1 p.2 (intent_ns intent) (intent_label intent) now)).countP
          is_default_deny = 0 :=
      List.countP_eq_zero.mpr (fun m hm => by
        obtain ⟨p, _, hm_eq⟩ := List.mem_map.mp hm
        rw [← hm_eq]
        simp [is_default_deny_egress])
    rw [hz1, hz2]
    rfl
  · have hmap : ims.map (fun m => m.spec.podSelector) = gsI.map (fun p => some p.1) :=
      option_traverse_map h2 (fun p _ m hm => by
        obtain ⟨es', srcs, _, _, hm_eq⟩ := generate_ingress_policy_eq_some hm
        rw [hm_eq])
    rw [hmap, ← rules_by_dest_keys h1]
    simp [group_keys, List.map_map, Function.comp]
  · rw [← extract_egress_keys h3]
    simp [group_keys, List.map_map, Function.comp]
    intro a b _
    rfl
  · intro m hm
    obtain ⟨p, _, hgip⟩ := option_traverse_mem h2 m hm
    obtain ⟨es', srcs, _, _, hm_eq⟩ := generate_ingress_policy_eq_some hgip
    rw [hm_eq]
  · intro m hm
    obtain ⟨p, _, hm_eq⟩ := List.mem_map.mp hm
    rw [← hm_eq]
    rfl

/-- Counterexample to C4 as stated: the single rule of `intent_web`
references namespace `web` (distinct from the intent namespace `default`),
so under the claim the output should contain a default-deny manifest for
each of the two referenced namespaces; the generated list contains exactly
one default-deny manifest and every manifest lives in `default` — no
manifest at all is emitted for namespace `web`. -/
theorem C4_counterexample :
    intent_web.rules = some [{ «from» := some "a", «to» := some "b",
                               ports := none, protocols := none, «namespace» := some "web" }] ∧
    (generate intent_web "T").map (fun ps =>
        (ps.countP is_default_deny, ps.map (fun m => m.metadata.«namespace»))) =
      some (1, ["default", "default", "default"]) := by
  constructor
  · rfl
  · rfl

/-- Witness for C4 at Scenario A. -/
theorem C4_canonical_order_witness :
    ∃ ims ems,
      (generate intent_a "T").getD [] =
        generate_default_deny (intent_ns intent_a) "T" :: (ims ++ ems) ∧
      (generate_default_deny (intent_ns intent_a) "T").metadata.«namespace» =
        intent_ns intent_a ∧
      is_default_deny (generate_default_deny (intent_ns intent_a) "T") = true ∧
      ((generate intent_a "T").getD []).countP is_default_deny = 1 ∧
      ims.map (fun m => m.spec.podSelector) =
        (first_seen ((intent_rule_list intent_a).filterMap (fun r => r.«to»))).map some ∧
      ems.map (fun m => m.spec.podSelector) =
        (first_seen ((intent_rule_list intent_a).filterMap (fun r => r.«from»))).map some ∧
      (∀ m ∈ ims, m.spec.policyTypes = ["Ingress"]) ∧
      (∀ m ∈ ems, m.spec.policyTypes = ["Egress"]) :=
  C4_canonical_order intent_a "T" ((generate intent_a "T").getD []) rfl

/-- If the per-rule validation loop reports no error, every rule carries
both `from` and `to`. -/
theorem rule_messages_fst_nil :
    ∀ (rs : List Rule) (i : Nat), (rule_messages i rs).1 = [] →
      ∀ r ∈ rs, (r.«from»).isSome ∧ (r.«to»).isSome := by
  intro rs
  induction rs with
  | nil =>
    intro i _ r hr
    simp at hr
  | cons r0 rest ih =>
    intro i h r hr
    simp only [rule_messages] at h
    rcases List.append_eq_nil.mp h with ⟨hAB, hC⟩
    rcases List.append_eq_nil.mp hAB with ⟨hA, hB⟩
    rcases List.mem_cons.mp hr with rfl | hr'
    · constructor
      · by_cases hf0 : r.«from» = none
        · rw [if_pos hf0] at hA
          simp at hA
        · exact Option.ne_none_iff_isSome.mp hf0
      · by_cases ht0 : r.«to» = none
        · rw [if_pos ht0] at hB
          simp at hB
        · exact Option.ne_none_iff_isSome.mp ht0
    · exact ih (i + 1) hC r hr'

/-- C7: whenever `validate_intent` reports `valid = true`, `generate` runs
to completion (returns a manifest list rather than the modelled exception):
absent optional fields (`name`, `namespace`, `ports`, `protocols`, rule
`namespace`) never cause a failure; only the missing `from`/`to` fields
that the validator reports as errors can. -/
theorem C7_valid_generate_total (intent : Intent) (now : String)
    (h : (validate_intent intent).valid = true) :
    (generate intent now).isSome := by
  have hval : ((if intent.rules = none then ["Missing \x27rules\x27 field in intent"] else []) ++
      (rule_messages 0 (intent_rule_list intent)).1).isEmpty = true := h
  have herr : ((if intent.rules = none then ["Missing \x27rules\x27 field in intent"] else []) ++
      (rule_messages 0 (intent_rule_list intent)).1) = [] := by
    cases hE : ((if intent.rules = none then ["Missing \x27rules\x27 field in intent"] else []) ++
        (rule_messages 0 (intent_rule_list intent)).1) with
    | nil => rfl
    | cons x xs =>
      rw [hE] at hval
      simp at hval
  have hmsgs : (rule_messages 0 (intent_rule_list intent)).1 = [] :=
    (List.append_eq_nil.mp herr).2
  have hrule := rule_messages_fst_nil (intent_rule_list intent) 0 hmsgs
  obtain ⟨gsI, h1⟩ := Option.isSome_iff_exists.mp
    (group_by_aux_isSome (fun r => r.«to») (fun r => some r) (intent_rule_list intent) []
      (fun r hr => ⟨(hrule r hr).2, rfl⟩))
  have hims : (option_traverse (fun p =>
      generate_ingress_policy p.1 p.2 (intent_ns intent) (intent_label intent) now)
        gsI).isSome := by
    apply option_traverse_isSome
    intro p hp
    apply generate_ingress_policy_isSome
    intro r hr
    have hmem := mem_group_rules_by_dest
      (show rules_by_dest (intent_rule_list intent) = some gsI from h1) hp r hr
    exact (hrule r hmem.1).1
  obtain ⟨ims, h2⟩ := Option.isSome_iff_exists.mp hims
  obtain ⟨gsE, h3⟩ := Option.isSome_iff_exists.mp
    (group_by_aux_isSome (fun r => r.«from») mk_egress_dest (intent_rule_list intent) []
      (fun r hr => ⟨(hrule r hr).1, by
        obtain ⟨t, ht⟩ := Option.isSome_iff_exists.mp (hrule r hr).2
        simp [mk_egress_dest, ht]⟩))
  simp [generate, show rules_by_dest (intent_rule_list intent) = some gsI from h1, h2,
    show extract_egress_rules (intent_rule_list intent) = some gsE from h3]

/-- Witness for C7: Scenario A validates and generates. -/
theorem C7_valid_generate_total_witness :
    (validate_intent intent_a).valid = true ∧ (generate intent_a "T").isSome :=
  ⟨by decide, C7_valid_generate_total intent_a "T" (by decide)⟩
